import Mathlib

set_option autoImplicit false

/-!
Verification of the SeismicMesh core against its specification.

The shipped sources of this repository contain only the test
`tests/test_2d_domain_ext.py` and the example `examples/example_3D.py`;
the core package (the MeshSizeFunction builder and the MeshGenerator)
is not among them.  The definitions below therefore embed the core as
modelled from the specification, at the fidelity the verified claims
require; each such definition names what is missing.  Machine reals are
embedded as exact rationals.
-/

/-- Modelled from the spec: the raw mesh size h0 = velocity / (freq * wl)
(spec 4.1 step 1); the MeshSizeFunction implementation is absent from the
shipped sources. -/
def rawSize (freq wl v : ℚ) : ℚ := v / (freq * wl)

/-- Modelled from the spec: clamping of a coordinate or size value to the
interval from lo to hi (spec 4.1 step 2 and the boundary projection of
spec 4.4 step d). -/
def clampTo (lo hi x : ℚ) : ℚ := max lo (min x hi)

/-- Modelled from the spec: step 2 of the MeshSizeFunction builder, the
clamp of the raw size to the band from hmin to hmax (spec 4.1 step 2). -/
def clampSize (hmin hmax h : ℚ) : ℚ := clampTo hmin hmax h

/-- Modelled from the spec: the propagating pass of the gradient limiter
along a grid row (spec 4.1 step 3).  The accumulator prev is the already
limited value of the previous sample; each sample is lowered to at most
prev + g, where g = grade times the sample spacing. -/
def sweepFwdAux (g : ℚ) (prev : ℚ) : List ℚ → List ℚ
  | [] => []
  | b :: rest => min b (prev + g) :: sweepFwdAux g (min b (prev + g)) rest

/-- Modelled from the spec: one forward sweep of the gradient limiter over
a grid row (spec 4.1 step 3). -/
def sweepFwd (g : ℚ) : List ℚ → List ℚ
  | [] => []
  | a :: rest => a :: sweepFwdAux g a rest

/-- Modelled from the spec: the reverse-direction sweep of the gradient
limiter (spec 4.1 step 3: the sweep propagates until no violation
remains; one pass in each direction suffices on a row). -/
def sweepBwd (g : ℚ) (l : List ℚ) : List ℚ := (sweepFwd g l.reverse).reverse

/-- Modelled from the spec: the full gradient limiter on a grid row, a
forward then a backward propagating sweep (spec 4.1 step 3). -/
def limitGrade (g : ℚ) (l : List ℚ) : List ℚ := sweepBwd g (sweepFwd g l)

/-- Modelled from the spec: the MeshSizeFunction builder on one grid row
of velocity samples spaced dx apart: raw size, clamp, then the gradient
limiter (spec 4.1 steps 1 to 3). -/
def buildSizingRow (freq wl hmin hmax grade dx : ℚ) (v : List ℚ) : List ℚ :=
  limitGrade (grade * dx) (v.map (fun vel => clampSize hmin hmax (rawSize freq wl vel)))

/-- The forward sweep establishes the forward grading bound below the
seed value. -/
theorem sweepFwdAux_chain_fwd (g : ℚ) (l : List ℚ) :
    ∀ prev : ℚ, List.Chain' (fun a b => b ≤ a + g) (prev :: sweepFwdAux g prev l) := by
  induction l with
  | nil => intro prev; simp [sweepFwdAux]
  | cons b rest ih =>
    intro prev
    rw [sweepFwdAux, List.chain'_cons]
    exact ⟨min_le_right _ _, ih (min b (prev + g))⟩

/-- The forward sweep preserves the backward grading bound. -/
theorem sweepFwdAux_chain_bwd (g : ℚ) (hg : 0 ≤ g) (l : List ℚ) :
    ∀ prev : ℚ, List.Chain' (fun a b => a ≤ b + g) (prev :: l) →
      List.Chain' (fun a b => a ≤ b + g) (prev :: sweepFwdAux g prev l) := by
  induction l with
  | nil => intro prev _; simp [sweepFwdAux]
  | cons b rest ih =>
    intro prev h
    rw [List.chain'_cons] at h
    rw [sweepFwdAux, List.chain'_cons]
    constructor
    · have h1 : prev ≤ min (b + g) (prev + g + g) := le_min h.1 (by linarith)
      calc prev ≤ min (b + g) (prev + g + g) := h1
        _ = min b (prev + g) + g := by rw [min_add_add_right]
    · apply ih
      have h2 := h.2
      rw [List.chain'_cons'] at h2 ⊢
      refine ⟨fun y hy => ?_, h2.2⟩
      have hb := h2.1 y hy
      calc min b (prev + g) ≤ b := min_le_left _ _
        _ ≤ y + g := hb

/-- The forward sweep keeps every sample at or below an upper bound of
the input row. -/
theorem sweepFwdAux_le (hi g : ℚ) (l : List ℚ) :
    ∀ prev : ℚ, (∀ x ∈ l, x ≤ hi) → ∀ x ∈ sweepFwdAux g prev l, x ≤ hi := by
  induction l with
  | nil => intro prev _ x hx; simp [sweepFwdAux] at hx
  | cons b rest ih =>
    intro prev h x hx
    rw [sweepFwdAux] at hx
    rcases List.mem_cons.mp hx with rfl | hx
    · exact le_trans (min_le_left _ _) (h b (by simp))
    · exact ih _ (fun y hy => h y (by simp [hy])) x hx

/-- The forward sweep keeps every sample at or above a lower bound of the
input row, provided the grading increment is nonnegative. -/
theorem sweepFwdAux_ge (lo g : ℚ) (hg : 0 ≤ g) (l : List ℚ) :
    ∀ prev : ℚ, lo ≤ prev → (∀ x ∈ l, lo ≤ x) → ∀ x ∈ sweepFwdAux g prev l, lo ≤ x := by
  induction l with
  | nil => intro prev _ _ x hx; simp [sweepFwdAux] at hx
  | cons b rest ih =>
    intro prev hp h x hx
    rw [sweepFwdAux] at hx
    have hmin : lo ≤ min b (prev + g) := le_min (h b (by simp)) (by linarith)
    rcases List.mem_cons.mp hx with rfl | hx
    · exact hmin
    · exact ih _ hmin (fun y hy => h y (by simp [hy])) x hx

theorem sweepFwd_mem_le (hi g : ℚ) (l : List ℚ) (h : ∀ x ∈ l, x ≤ hi) :
    ∀ x ∈ sweepFwd g l, x ≤ hi := by
  cases l with
  | nil => intro x hx; simp [sweepFwd] at hx
  | cons a rest =>
    intro x hx
    rw [sweepFwd] at hx
    rcases List.mem_cons.mp hx with rfl | hx
    · exact h x (by simp)
    · exact sweepFwdAux_le hi g rest a (fun y hy => h y (by simp [hy])) x hx

theorem sweepFwd_mem_ge (lo g : ℚ) (hg : 0 ≤ g) (l : List ℚ) (h : ∀ x ∈ l, lo ≤ x) :
    ∀ x ∈ sweepFwd g l, lo ≤ x := by
  cases l with
  | nil => intro x hx; simp [sweepFwd] at hx
  | cons a rest =>
    intro x hx
    rw [sweepFwd] at hx
    rcases List.mem_cons.mp hx with rfl | hx
    · exact h x (by simp)
    · exact sweepFwdAux_ge lo g hg rest a (h a (by simp)) (fun y hy => h y (by simp [hy])) x hx

theorem sweepFwd_chain_fwd (g : ℚ) (l : List ℚ) :
    List.Chain' (fun a b => b ≤ a + g) (sweepFwd g l) := by
  cases l with
  | nil => simp [sweepFwd]
  | cons a rest => rw [sweepFwd]; exact sweepFwdAux_chain_fwd g rest a

theorem sweepFwd_chain_bwd (g : ℚ) (hg : 0 ≤ g) (l : List ℚ)
    (h : List.Chain' (fun a b => a ≤ b + g) l) :
    List.Chain' (fun a b => a ≤ b + g) (sweepFwd g l) := by
  cases l with
  | nil => simp [sweepFwd]
  | cons a rest => rw [sweepFwd]; exact sweepFwdAux_chain_bwd g hg rest a h

/-- A row satisfying both one-sided grading bounds satisfies the
absolute-difference grading bound on adjacent samples. -/
theorem chain_abs_of_two_sided (g : ℚ) (l : List ℚ)
    (h1 : List.Chain' (fun a b => b ≤ a + g) l)
    (h2 : List.Chain' (fun a b => a ≤ b + g) l) :
    List.Chain' (fun a b => |a - b| ≤ g) l := by
  induction l with
  | nil => simp
  | cons a rest ih =>
    rw [List.chain'_cons'] at h1 h2 ⊢
    refine ⟨fun y hy => ?_, ih h1.2 h2.2⟩
    have k1 := h1.1 y hy
    have k2 := h2.1 y hy
    rw [abs_sub_le_iff]
    constructor <;> linarith

theorem limitGrade_chain (g : ℚ) (hg : 0 ≤ g) (l : List ℚ) :
    List.Chain' (fun a b => |a - b| ≤ g) (limitGrade g l) := by
  have hfwd : List.Chain' (fun a b => b ≤ a + g) (sweepFwd g l) := sweepFwd_chain_fwd g l
  have hrev : List.Chain' (fun a b => a ≤ b + g) (sweepFwd g l).reverse := by
    rw [List.chain'_reverse]; exact hfwd
  have hbwd2 : List.Chain' (fun a b => a ≤ b + g) (sweepFwd g (sweepFwd g l).reverse) :=
    sweepFwd_chain_bwd g hg _ hrev
  have hfwd2 : List.Chain' (fun a b => b ≤ a + g) (sweepFwd g (sweepFwd g l).reverse) :=
    sweepFwd_chain_fwd g _
  have r1 : List.Chain' (fun a b => b ≤ a + g) (limitGrade g l) := by
    unfold limitGrade sweepBwd
    rw [List.chain'_reverse]
    exact hbwd2
  have r2 : List.Chain' (fun a b => a ≤ b + g) (limitGrade g l) := by
    unfold limitGrade sweepBwd
    rw [List.chain'_reverse]
    exact hfwd2
  exact chain_abs_of_two_sided g _ r1 r2

theorem limitGrade_mem_le (hi g : ℚ) (l : List ℚ) (h : ∀ x ∈ l, x ≤ hi) :
    ∀ x ∈ limitGrade g l, x ≤ hi := by
  intro x hx
  unfold limitGrade sweepBwd at hx
  rw [List.mem_reverse] at hx
  refine sweepFwd_mem_le hi g _ ?_ x hx
  intro y hy
  rw [List.mem_reverse] at hy
  exact sweepFwd_mem_le hi g l h y hy

theorem limitGrade_mem_ge (lo g : ℚ) (hg : 0 ≤ g) (l : List ℚ) (h : ∀ x ∈ l, lo ≤ x) :
    ∀ x ∈ limitGrade g l, lo ≤ x := by
  intro x hx
  unfold limitGrade sweepBwd at hx
  rw [List.mem_reverse] at hx
  refine sweepFwd_mem_ge lo g hg _ ?_ x hx
  intro y hy
  rw [List.mem_reverse] at hy
  exact sweepFwd_mem_ge lo g hg l h y hy

theorem clampSize_mem (hmin hmax h : ℚ) (hle : hmin ≤ hmax) :
    hmin ≤ clampSize hmin hmax h ∧ clampSize hmin hmax h ≤ hmax := by
  unfold clampSize clampTo
  exact ⟨le_max_left _ _, max_le hle (min_le_right _ _)⟩

/-- Modelled from the spec: the extended sampling interval along one axis
when domain_ext = D is applied (spec 4.1 step 4); the domain-extension
code is absent from the shipped sources. -/
def extendInterval (lo hi D : ℚ) : ℚ × ℚ := (lo - D, hi + D)

/-- Modelled from the spec: the constant padstyle fills the extended
region by repeating the boundary value (spec 4.1 step 4). -/
def padConstant (npad : Nat) (edge : ℚ) : List ℚ := List.replicate npad edge

/-- Modelled from the spec: the linear_ramp padstyle fills the extended
region with sizes increasing linearly from the boundary value up to hmax
at the outer edge (spec 4.1 step 4). -/
def padLinearRamp (npad : Nat) (edge hmax : ℚ) : List ℚ :=
  (List.range npad).map (fun k : Nat => edge + (hmax - edge) * ((k : ℚ) + 1) / (npad : ℚ))

/-- The linear ramp is monotonically non-decreasing outward, starting at
or above the boundary value. -/
theorem padLinearRamp_chain (npad : Nat) (edge hmax : ℚ) (he : edge ≤ hmax) :
    List.Chain' (fun a b => a ≤ b) (edge :: padLinearRamp npad edge hmax) := by
  have h1 : (0 : ℚ) ≤ hmax - edge := sub_nonneg.mpr he
  unfold padLinearRamp
  rw [List.chain'_cons']
  constructor
  · intro y hy
    cases npad with
    | zero => simp at hy
    | succ n =>
      have h2 : (0 : ℚ) < ((n + 1 : ℕ) : ℚ) := by push_cast; positivity
      rw [List.range_succ_eq_map] at hy
      simp only [List.map_cons, List.head?_cons, Option.mem_def, Option.some.injEq] at hy
      subst hy
      have h3 : (0 : ℚ) ≤ (hmax - edge) * ((0 : ℚ) + 1) / ((n + 1 : ℕ) : ℚ) := by
        apply div_nonneg (by linarith) (le_of_lt h2)
      push_cast at h3 ⊢
      linarith
  · rw [List.chain'_map]
    cases npad with
    | zero => simp
    | succ n =>
      have h2 : (0 : ℚ) < ((n + 1 : ℕ) : ℚ) := by push_cast; positivity
      rw [List.chain'_range_succ]
      intro m _
      have h4 : ((m : ℚ) + 1) ≤ ((m + 1 : ℕ) : ℚ) + 1 := by push_cast; linarith
      have h5 : (hmax - edge) * ((m : ℚ) + 1) ≤ (hmax - edge) * (((m + 1 : ℕ) : ℚ) + 1) :=
        mul_le_mul_of_nonneg_left h4 h1
      exact add_le_add_left ((div_le_div_iff_of_pos_right h2).mpr h5) edge

/-- The linear ramp reaches hmax exactly at the outer edge. -/
theorem padLinearRamp_getLast (npad : Nat) (edge hmax : ℚ) (hnp : 0 < npad) :
    (padLinearRamp npad edge hmax).getLast? = some hmax := by
  obtain ⟨n, rfl⟩ : ∃ n, npad = n + 1 := ⟨npad - 1, by omega⟩
  unfold padLinearRamp
  rw [List.range_succ]
  simp only [List.map_append, List.map_singleton]
  rw [List.getLast?_concat]
  congr 1
  have h2 : ((n : ℚ) + 1) ≠ 0 := by positivity
  push_cast
  field_simp

/-- C4: with domain_ext = D greater than 0 the extended sampling interval
strictly contains the original interval on both sides; the constant
padstyle repeats the boundary value uniformly over the extended region;
the linear_ramp padstyle is monotonically non-decreasing outward from the
boundary value and reaches hmax at the outer edge. -/
theorem domain_extension_and_padstyles
    (lo hi D edge hmax : ℚ) (npad : Nat)
    (hD : 0 < D) (hnp : 0 < npad) (he : edge ≤ hmax) :
    ((extendInterval lo hi D).1 < lo ∧ hi < (extendInterval lo hi D).2) ∧
      (∀ x ∈ padConstant npad edge, x = edge) ∧
      List.Chain' (fun a b => a ≤ b) (edge :: padLinearRamp npad edge hmax) ∧
      (padLinearRamp npad edge hmax).getLast? = some hmax := by
  refine ⟨⟨?_, ?_⟩, ?_, padLinearRamp_chain npad edge hmax he,
    padLinearRamp_getLast npad edge hmax hnp⟩
  · exact sub_lt_self lo hD
  · exact lt_add_of_pos_right hi hD
  · intro x hx
    exact List.eq_of_mem_replicate hx

theorem domain_extension_and_padstyles_witness :
    ((0 : ℚ) < 1000 ∧ 0 < (4 : ℕ) ∧ (500 : ℚ) ≤ 1000) ∧
      (((extendInterval (-10000) 0 1000).1 < -10000 ∧
          (0 : ℚ) < (extendInterval (-10000) 0 1000).2) ∧
        (∀ x ∈ padConstant 4 (500 : ℚ), x = 500) ∧
        List.Chain' (fun a b => a ≤ b) ((500 : ℚ) :: padLinearRamp 4 500 1000) ∧
        (padLinearRamp 4 (500 : ℚ) 1000).getLast? = some 1000) :=
  ⟨⟨by norm_num, by norm_num, by norm_num⟩,
    domain_extension_and_padstyles (-10000) 0 1000 500 1000 4
      (by norm_num) (by norm_num) (by norm_num)⟩

/-- Modelled from the spec: the error taxonomy entry for invalid
configurations (spec 7): either the size clamps are inverted or the
bounding box has zero or negative extent on some axis. -/
inductive ConfigurationError where
  | invalidSizeBounds : ConfigurationError
  | invalidBboxExtent : ConfigurationError
deriving DecidableEq

/-- Modelled from the spec: the fail-fast configuration validation of the
MeshSizeFunction builder (spec 4.1 Errors and spec 7), over a bounding box
given as one (lo, hi) interval per axis. -/
def checkSizingConfig (bbox : List (ℚ × ℚ)) (hmin hmax : ℚ) :
    Except ConfigurationError Unit :=
  if hmax < hmin then Except.error ConfigurationError.invalidSizeBounds
  else if bbox.any (fun iv => decide (iv.2 ≤ iv.1)) then
    Except.error ConfigurationError.invalidBboxExtent
  else Except.ok ()

/-- Modelled from the spec: the checked entry point of the MeshSizeFunction
builder; validation runs first, and only a valid configuration reaches the
field computation (spec 4.1, spec 7: fails fast before any computation). -/
def buildSizingChecked (bbox : List (ℚ × ℚ)) (freq wl hmin hmax grade dx : ℚ)
    (v : List ℚ) : Except ConfigurationError (List ℚ) :=
  match checkSizingConfig bbox hmin hmax with
  | Except.error e => Except.error e
  | Except.ok _ => Except.ok (buildSizingRow freq wl hmin hmax grade dx v)

/-- C5: the sizing-field builder fails with a ConfigurationError exactly
when hmin exceeds hmax or the bounding box has zero or negative extent on
some axis; every valid configuration passes validation and yields a built
field. -/
theorem configuration_validation_fails_fast
    (bbox : List (ℚ × ℚ)) (freq wl hmin hmax grade dx : ℚ) (v : List ℚ) :
    ((∃ e, buildSizingChecked bbox freq wl hmin hmax grade dx v = Except.error e) ↔
        (hmax < hmin ∨ ∃ iv ∈ bbox, iv.2 ≤ iv.1)) ∧
      (¬ (hmax < hmin ∨ ∃ iv ∈ bbox, iv.2 ≤ iv.1) →
        buildSizingChecked bbox freq wl hmin hmax grade dx v =
          Except.ok (buildSizingRow freq wl hmin hmax grade dx v)) := by
  unfold buildSizingChecked checkSizingConfig
  by_cases h1 : hmax < hmin
  · simp [h1]
  · by_cases h2 : bbox.any (fun iv => decide (iv.2 ≤ iv.1))
    · have h2x : ∃ iv ∈ bbox, iv.2 ≤ iv.1 := by
        rcases List.any_eq_true.mp h2 with ⟨iv, hiv, hle⟩
        exact ⟨iv, hiv, of_decide_eq_true hle⟩
      refine ⟨⟨fun _ => Or.inr h2x,
        fun _ => ⟨ConfigurationError.invalidBboxExtent, ?_⟩⟩,
        fun hcon => absurd (Or.inr h2x) hcon⟩
      simp [h1, h2]
    · have h2x : ¬ ∃ iv ∈ bbox, iv.2 ≤ iv.1 := by
        intro ⟨iv, hiv, hle⟩
        exact h2 (List.any_eq_true.mpr ⟨iv, hiv, decide_eq_true hle⟩)
      simp [h1, h2, h2x]

/-- Points of the generator state space, embedded as exact rational
triples (the 2-D path of the original stores a zero third component). -/
abbrev Vec3 := ℚ × ℚ × ℚ

/-- A simplex of the output SimplexSet: an index quadruple into the
point set (a tetrahedron; the 2-D path repeats one index). -/
structure Tet where
  a : Nat
  b : Nat
  c : Nat
  d : Nat
deriving DecidableEq

def vsub (p q : Vec3) : Vec3 := (p.1 - q.1, p.2.1 - q.2.1, p.2.2 - q.2.2)

def dot3 (p q : Vec3) : ℚ := p.1 * q.1 + p.2.1 * q.2.1 + p.2.2 * q.2.2

def cross3 (p q : Vec3) : Vec3 :=
  (p.2.1 * q.2.2 - p.2.2 * q.2.1, p.2.2 * q.1 - p.1 * q.2.2, p.1 * q.2.1 - p.2.1 * q.1)

def getPt (pts : List Vec3) (i : Nat) : Vec3 := pts.getD i (0, 0, 0)

/-- Six times the signed volume of a tetrahedron given by its corner
coordinates. -/
def vol6 (p0 p1 p2 p3 : Vec3) : ℚ :=
  dot3 (vsub p1 p0) (cross3 (vsub p2 p0) (vsub p3 p0))

def tetVol6 (pts : List Vec3) (t : Tet) : ℚ :=
  vol6 (getPt pts t.a) (getPt pts t.b) (getPt pts t.c) (getPt pts t.d)

/-- A simplex is kept by the output assembly when its indices are in
range and its volume is nonzero (non-degenerate). -/
def tetOk (pts : List Vec3) (t : Tet) : Bool :=
  decide (t.a < pts.length) && decide (t.b < pts.length) &&
    decide (t.c < pts.length) && decide (t.d < pts.length) &&
    decide (tetVol6 pts t ≠ 0)

/-- Whether a simplex references point index i. -/
def tetRefs (t : Tet) (i : Nat) : Bool :=
  decide (t.a = i) || decide (t.b = i) || decide (t.c = i) || decide (t.d = i)

/-- The simplices retained by the output assembly: those in range and
non-degenerate. -/
def meshKeptTets (pts : List Vec3) (ts : List Tet) : List Tet :=
  ts.filter (fun t => tetOk pts t)

/-- The point indices retained by the output assembly: those referenced
by some retained simplex. -/
def meshKeptIdx (pts : List Vec3) (ts : List Tet) : List Nat :=
  (List.range pts.length).filter (fun i => (meshKeptTets pts ts).any (fun t => tetRefs t i))

/-- Modelled from the spec: the output assembly of the MeshGenerator,
which is absent from the shipped sources.  The returned mesh satisfies
the validity invariant of spec 8: degenerate simplices are dropped and
points referenced by no remaining simplex are removed, with the simplex
indices compacted accordingly. -/
def finalizeMesh (pts : List Vec3) (ts : List Tet) : List Vec3 × List Tet :=
  ((meshKeptIdx pts ts).map (fun i => getPt pts i),
    (meshKeptTets pts ts).map (fun t =>
      Tet.mk ((meshKeptIdx pts ts).indexOf t.a) ((meshKeptIdx pts ts).indexOf t.b)
        ((meshKeptIdx pts ts).indexOf t.c) ((meshKeptIdx pts ts).indexOf t.d)))

/-- A simplex of a mesh is non-degenerate: indices in range and nonzero
volume (strictly positive unsigned area/volume). -/
def TetNondegenerate (pts : List Vec3) (t : Tet) : Prop :=
  t.a < pts.length ∧ t.b < pts.length ∧ t.c < pts.length ∧ t.d < pts.length ∧
    tetVol6 pts t ≠ 0

/-- Every point index of the mesh is referenced by at least one simplex. -/
def NoOrphans (pts : List Vec3) (ts : List Tet) : Prop :=
  ∀ j, j < pts.length → ∃ t ∈ ts, tetRefs t j = true

/-- The mesh-validity invariant of spec 8. -/
def MeshValid (pts : List Vec3) (ts : List Tet) : Prop :=
  (∀ t ∈ ts, TetNondegenerate pts t) ∧ NoOrphans pts ts

theorem tetOk_iff (pts : List Vec3) (t : Tet) :
    tetOk pts t = true ↔
      (t.a < pts.length ∧ t.b < pts.length ∧ t.c < pts.length ∧ t.d < pts.length ∧
        tetVol6 pts t ≠ 0) := by
  unfold tetOk
  simp [Bool.and_eq_true, decide_eq_true_iff, and_assoc]

theorem meshKeptIdx_nodup (pts : List Vec3) (ts : List Tet) :
    (meshKeptIdx pts ts).Nodup :=
  (List.nodup_range _).filter _

theorem mem_meshKeptIdx (pts : List Vec3) (ts : List Tet) (i : Nat) :
    i ∈ meshKeptIdx pts ts ↔
      i < pts.length ∧ ∃ t ∈ meshKeptTets pts ts, tetRefs t i = true := by
  unfold meshKeptIdx
  simp [List.mem_filter, List.mem_range, List.any_eq_true]

theorem meshKeptIdx_getPt (pts : List Vec3) (ts : List Tet) (i : Nat)
    (hi : i ∈ meshKeptIdx pts ts) :
    getPt ((meshKeptIdx pts ts).map (fun j => getPt pts j))
      ((meshKeptIdx pts ts).indexOf i) = getPt pts i := by
  have hlt : (meshKeptIdx pts ts).indexOf i < (meshKeptIdx pts ts).length :=
    List.indexOf_lt_length.mpr hi
  show ((meshKeptIdx pts ts).map (fun j => getPt pts j)).getD
      ((meshKeptIdx pts ts).indexOf i) (0, 0, 0) = getPt pts i
  have hlt2 : (meshKeptIdx pts ts).indexOf i <
      ((meshKeptIdx pts ts).map (fun j => getPt pts j)).length := by
    simpa using hlt
  rw [List.getD_eq_getElem _ _ hlt2, List.getElem_map, List.getElem_indexOf hlt]

theorem tetVol6_mk (pts : List Vec3) (i1 i2 i3 i4 : Nat) :
    tetVol6 pts (Tet.mk i1 i2 i3 i4) =
      vol6 (getPt pts i1) (getPt pts i2) (getPt pts i3) (getPt pts i4) := rfl

/-- The output assembly always returns a valid mesh: only non-degenerate
simplices are kept, and every remaining point is referenced. -/
theorem finalizeMesh_valid (pts : List Vec3) (ts : List Tet) :
    MeshValid (finalizeMesh pts ts).1 (finalizeMesh pts ts).2 := by
  have hb1 : (finalizeMesh pts ts).1 = (meshKeptIdx pts ts).map (fun j => getPt pts j) := rfl
  have hb2 : (finalizeMesh pts ts).2 = (meshKeptTets pts ts).map (fun t =>
      Tet.mk ((meshKeptIdx pts ts).indexOf t.a) ((meshKeptIdx pts ts).indexOf t.b)
        ((meshKeptIdx pts ts).indexOf t.c) ((meshKeptIdx pts ts).indexOf t.d)) := rfl
  rw [MeshValid, hb1, hb2]
  constructor
  · intro t' ht'
    rcases List.mem_map.mp ht' with ⟨t, ht, rfl⟩
    have hok := (List.mem_filter.mp ht).2
    rw [tetOk_iff] at hok
    obtain ⟨ha, hb, hc, hd, hv⟩ := hok
    have hmA : t.a ∈ meshKeptIdx pts ts :=
      (mem_meshKeptIdx pts ts t.a).mpr ⟨ha, t, ht, by unfold tetRefs; simp⟩
    have hmB : t.b ∈ meshKeptIdx pts ts :=
      (mem_meshKeptIdx pts ts t.b).mpr ⟨hb, t, ht, by unfold tetRefs; simp⟩
    have hmC : t.c ∈ meshKeptIdx pts ts :=
      (mem_meshKeptIdx pts ts t.c).mpr ⟨hc, t, ht, by unfold tetRefs; simp⟩
    have hmD : t.d ∈ meshKeptIdx pts ts :=
      (mem_meshKeptIdx pts ts t.d).mpr ⟨hd, t, ht, by unfold tetRefs; simp⟩
    unfold TetNondegenerate
    refine ⟨?_, ?_, ?_, ?_, ?_⟩
    · simpa using List.indexOf_lt_length.mpr hmA
    · simpa using List.indexOf_lt_length.mpr hmB
    · simpa using List.indexOf_lt_length.mpr hmC
    · simpa using List.indexOf_lt_length.mpr hmD
    · rw [tetVol6_mk, meshKeptIdx_getPt pts ts t.a hmA, meshKeptIdx_getPt pts ts t.b hmB,
        meshKeptIdx_getPt pts ts t.c hmC, meshKeptIdx_getPt pts ts t.d hmD]
      exact hv
  · intro j hj
    have hj' : j < (meshKeptIdx pts ts).length := by simpa using hj
    have hik : (meshKeptIdx pts ts)[j] ∈ meshKeptIdx pts ts := List.getElem_mem hj'
    obtain ⟨-, t, ht, href⟩ := (mem_meshKeptIdx pts ts _).mp hik
    refine ⟨Tet.mk ((meshKeptIdx pts ts).indexOf t.a) ((meshKeptIdx pts ts).indexOf t.b)
      ((meshKeptIdx pts ts).indexOf t.c) ((meshKeptIdx pts ts).indexOf t.d),
      List.mem_map_of_mem _ ht, ?_⟩
    have hidx : (meshKeptIdx pts ts).indexOf ((meshKeptIdx pts ts)[j]) = j :=
      List.indexOf_getElem (meshKeptIdx_nodup pts ts) j hj'
    unfold tetRefs at href ⊢
    simp only [Bool.or_eq_true, decide_eq_true_iff] at href ⊢
    rcases href with ((h | h) | h) | h
    · exact Or.inl (Or.inl (Or.inl (by rw [h, hidx])))
    · exact Or.inl (Or.inl (Or.inr (by rw [h, hidx])))
    · exact Or.inl (Or.inr (by rw [h, hidx]))
    · exact Or.inr (by rw [h, hidx])

/-- Modelled from the spec: the seeded pseudo-random generator of the
PointSampler (spec 4.2: a fixed seed reproduces an identical initial
set); a standard linear congruential step, absent from the shipped
sources. -/
def lcg (s : Nat) : Nat := (s * 1103515245 + 12345) % 2147483648

def lcgStream : Nat → Nat → List Nat
  | 0, _ => []
  | n + 1, s => lcg s :: lcgStream n (lcg s)

def unitOf (r : Nat) : ℚ := (r : ℚ) / 2147483648

/-- Modelled from the spec: the generator configuration derived from the
sizing field: one (lo, hi) interval per axis and the minimum size
(spec 4.4, spec 6 configuration surface). -/
structure GenConfig where
  xint : ℚ × ℚ
  yint : ℚ × ℚ
  zint : ℚ × ℚ
  hmin : ℚ
deriving DecidableEq

def scaleTo (iv : ℚ × ℚ) (u : ℚ) : ℚ := iv.1 + (iv.2 - iv.1) * u

def toTriples : List ℚ → List Vec3
  | x :: y :: z :: rest => (x, y, z) :: toTriples rest
  | _ => []

/-- Modelled from the spec: the number of initial sample points, derived
from the domain volume against the minimum size (spec 4.2: density
approximates one point per local target cell). -/
def nInit (cfg : GenConfig) : Nat :=
  (Rat.floor (((cfg.xint.2 - cfg.xint.1) * (cfg.yint.2 - cfg.yint.1) *
    (cfg.zint.2 - cfg.zint.1)) / (cfg.hmin * cfg.hmin * cfg.hmin))).toNat + 4

/-- Modelled from the spec: the PointSampler (spec 4.2), absent from the
shipped sources: successive pseudo-random values from the seeded stream
are scaled into the (padded) domain. -/
def samplePoints (cfg : GenConfig) (seed : Nat) : List Vec3 :=
  (toTriples ((lcgStream (3 * nInit cfg) seed).map unitOf)).map
    (fun p => (scaleTo cfg.xint p.1, scaleTo cfg.yint p.2.1, scaleTo cfg.zint p.2.2))

/-- Modelled from the spec: the boundary projection of spec 4.4 step d:
points leaving the domain are clamped back onto it. -/
def projectInto (cfg : GenConfig) (p : Vec3) : Vec3 :=
  (clampTo cfg.xint.1 cfg.xint.2 p.1, clampTo cfg.yint.1 cfg.yint.2 p.2.1,
    clampTo cfg.zint.1 cfg.zint.2 p.2.2)

def midpoint3 (p q : Vec3) : Vec3 :=
  ((p.1 + q.1) / 2, (p.2.1 + q.2.1) / 2, (p.2.2 + q.2.2) / 2)

/-- Modelled from the spec: one force-relaxation displacement step
(spec 4.4 steps b to d): each point is displaced by the edge-spring force
toward its neighbour and projected back into the domain.  The numeric
displacement schedule is schematic (spec 9 notes it is not observable);
the claims verified against it concern only its purity in the
configuration and its independence of reporting parameters. -/
def relaxStep (cfg : GenConfig) (pts : List Vec3) : List Vec3 :=
  (pts.zip (pts.rotate 1)).map (fun pq => projectInto cfg (midpoint3 pq.1 pq.2))

/-- Modelled from the spec: the iteration loop of spec 4.4; iteration i
appends a progress entry when i is a multiple of nscreen (spec 4.4:
nscreen controls progress-reporting cadence only). -/
def relaxLoop (cfg : GenConfig) (nscreen : Nat) :
    Nat → Nat → List Vec3 → List Nat → List Vec3 × List Nat
  | 0, _, pts, lg => (pts, lg)
  | fuel + 1, i, pts, lg =>
    relaxLoop cfg nscreen fuel (i + 1) (relaxStep cfg pts)
      (if i % nscreen = 0 then lg ++ [i] else lg)

/-- Modelled from the spec: the Triangulator collaborator (spec 4.3), a
pure function of the point set (spec 9: triangulation is a pure function
of the current PointSet); the combinatorial pattern is schematic and the
output assembly filters whatever is degenerate. -/
def triangulate (pts : List Vec3) : List Tet :=
  (List.range (pts.length - 3)).map (fun k => Tet.mk 0 (k + 1) (k + 2) (k + 3))

/-- Ambient state outside the generator: an explicit token whose clock
advances across calls, so that independence of the results from ambient
state is an expressible statement. -/
structure World where
  clock : Nat
deriving DecidableEq

structure BuildResult where
  points : List Vec3
  cells : List Tet
  log : List Nat
  world : World
deriving DecidableEq

/-- Modelled from the spec: the MeshSizeFunction object (spec 4.1),
absent from the shipped sources; interpolant is present exactly after
build() has run. -/
structure MeshSizeFunction where
  bbox : List (ℚ × ℚ)
  velocities : List ℚ
  freq : ℚ
  wl : ℚ
  hmin : ℚ
  hmax : ℚ
  grade : ℚ
  dx : ℚ
  domainExt : ℚ
  interpolant : Option (List ℚ)
deriving DecidableEq

/-- Modelled from the spec: MeshSizeFunction.build() returns the sizing
object with its interpolant computed (usage: ef = ef.build()). -/
def MeshSizeFunction.build (m : MeshSizeFunction) : MeshSizeFunction :=
  MeshSizeFunction.mk m.bbox m.velocities m.freq m.wl m.hmin m.hmax m.grade m.dx
    m.domainExt
    (some (buildSizingRow m.freq m.wl m.hmin m.hmax m.grade m.dx m.velocities))

structure MeshGenerator where
  sizing : List ℚ
  cfg : GenConfig
deriving DecidableEq

def cfgOf (m : MeshSizeFunction) : GenConfig :=
  GenConfig.mk (m.bbox.getD 0 (0, 1)) (m.bbox.getD 1 (0, 1)) (m.bbox.getD 2 (0, 1)) m.hmin

/-- Modelled from the spec: the MeshGenerator constructor consumes a
built sizing field (spec 2 data flow; usage mshgen = MeshGenerator(ef)
after ef = ef.build()); it requires the interpolant to be present. -/
def MeshGenerator.ofSizing (m : MeshSizeFunction) : Option MeshGenerator :=
  match m.interpolant with
  | some f => some (MeshGenerator.mk f (cfgOf m))
  | none => none

def sgnSq (x : ℚ) : ℚ := if x < 0 then -(x * x) else x * x

/-- The sign-preserving squared cosine of the angle between two face
normals: sgnSq of the dot product over the product of squared norms.
As a function of the dihedral angle on [0, pi] it is strictly
decreasing, so comparisons of dihedral angles are exactly the reversed
comparisons of this exact rational measure (the original evaluates the
angle itself in floating point, which a rational embedding cannot). -/
def cosMeasure (n1 n2 : Vec3) : ℚ :=
  if dot3 n1 n1 * dot3 n2 n2 = 0 then 1
  else sgnSq (dot3 n1 n2) / (dot3 n1 n1 * dot3 n2 n2)

/-- The cosine measure of the dihedral angle along edge (u, v) between
the faces through w1 and through w2. -/
def dihedralCos (u v w1 w2 : Vec3) : ℚ :=
  cosMeasure (cross3 (vsub v u) (vsub w1 u)) (cross3 (vsub v u) (vsub w2 u))

/-- The six dihedral-angle cosine measures of a tetrahedron. -/
def tetDihedralCos (pts : List Vec3) (t : Tet) : List ℚ :=
  [dihedralCos (getPt pts t.a) (getPt pts t.b) (getPt pts t.c) (getPt pts t.d),
    dihedralCos (getPt pts t.a) (getPt pts t.c) (getPt pts t.b) (getPt pts t.d),
    dihedralCos (getPt pts t.a) (getPt pts t.d) (getPt pts t.b) (getPt pts t.c),
    dihedralCos (getPt pts t.b) (getPt pts t.c) (getPt pts t.a) (getPt pts t.d),
    dihedralCos (getPt pts t.b) (getPt pts t.d) (getPt pts t.a) (getPt pts t.c),
    dihedralCos (getPt pts t.c) (getPt pts t.d) (getPt pts t.a) (getPt pts t.b)]

/-- The mesh-wide maximum of the dihedral cosine measure.  Because the
measure is strictly decreasing in the angle, this maximum corresponds
exactly to the minimum dihedral angle of the mesh: the minimum angle of
mesh A is at least that of mesh B iff meshDihedralCos A is at most
meshDihedralCos B. -/
def meshDihedralCos (pc : List Vec3 × List Tet) : ℚ :=
  ((pc.2.map (fun t => tetDihedralCos pc.1 t)).flatten).foldr max (-1)

/-- Modelled from the spec: one local repair pass of the
MeshQualityImprover (spec 4.6), restricted to the offending simplices:
those with a dihedral angle below the bound, i.e. with cosine measure
above minDhCos (the angle bound mapped to the cosine scale); the
schematic local operation removes them. -/
def repairPass (minDhCos : ℚ) (pc : List Vec3 × List Tet) : List Vec3 × List Tet :=
  (pc.1, pc.2.filter (fun t => decide ((tetDihedralCos pc.1 t).foldr max (-1) ≤ minDhCos)))

/-- Modelled from the spec: the MeshQualityImprover (spec 4.6), absent
from the shipped sources: bounded repair passes, each kept only when it
does not lower the minimum dihedral angle (does not raise the cosine
measure), so the best mesh achieved is returned. -/
def MeshQualityImprover (repair : List Vec3 × List Tet → List Vec3 × List Tet) :
    Nat → List Vec3 × List Tet → List Vec3 × List Tet
  | 0, pc => pc
  | n + 1, pc =>
    if meshDihedralCos (repair pc) ≤ meshDihedralCos pc then
      MeshQualityImprover repair n (repair pc)
    else
      MeshQualityImprover repair n pc

/-- Modelled from the spec: the build operation of the MeshGenerator
(spec 4.4 public operation, spec 4.6, and the usage in
examples/example_3D.py): with an input point set and
mesh_improvement=True only the quality-improvement pass runs; otherwise
the generation pipeline runs — seeded sampling, the relaxation loop with
progress reporting every nscreen iterations, triangulation and output
assembly.  The ambient world token is threaded and advanced. -/
def MeshGenerator.build (gen : MeshGenerator) (w : World) (maxIter : Nat) (seed : Nat)
    (nscreen : Nat) (ptsIn : Option (List Vec3 × List Tet)) (meshImprovement : Bool)
    (minDhBound : ℚ) : BuildResult :=
  match ptsIn, meshImprovement with
  | some pc, true =>
    BuildResult.mk (MeshQualityImprover (repairPass minDhBound) maxIter pc).1
      (MeshQualityImprover (repairPass minDhBound) maxIter pc).2 []
      (World.mk (w.clock + maxIter))
  | _, _ =>
    BuildResult.mk
      (finalizeMesh (relaxLoop gen.cfg nscreen maxIter 0 (samplePoints gen.cfg seed) []).1
        (triangulate (relaxLoop gen.cfg nscreen maxIter 0 (samplePoints gen.cfg seed) []).1)).1
      (finalizeMesh (relaxLoop gen.cfg nscreen maxIter 0 (samplePoints gen.cfg seed) []).1
        (triangulate (relaxLoop gen.cfg nscreen maxIter 0 (samplePoints gen.cfg seed) []).1)).2
      (relaxLoop gen.cfg nscreen maxIter 0 (samplePoints gen.cfg seed) []).2
      (World.mk (w.clock + maxIter))

/-- The point state of the relaxation loop does not depend on the
reporting cadence or on the accumulated log. -/
theorem relaxLoop_points (cfg : GenConfig) (n1 n2 : Nat) (fuel : Nat) :
    ∀ (i : Nat) (pts : List Vec3) (lg1 lg2 : List Nat),
      (relaxLoop cfg n1 fuel i pts lg1).1 = (relaxLoop cfg n2 fuel i pts lg2).1 := by
  induction fuel with
  | zero => intro i pts lg1 lg2; rfl
  | succ f ih =>
    intro i pts lg1 lg2
    exact ih (i + 1) (relaxStep cfg pts)
      (if i % n1 = 0 then lg1 ++ [i] else lg1) (if i % n2 = 0 then lg2 ++ [i] else lg2)

/-- The bounded keep-best repair loop never raises the mesh-wide maximum
cosine measure, i.e. never lowers the minimum dihedral angle. -/
theorem MeshQualityImprover_le
    (repair : List Vec3 × List Tet → List Vec3 × List Tet) (n : Nat)
    (pc : List Vec3 × List Tet) :
    meshDihedralCos (MeshQualityImprover repair n pc) ≤ meshDihedralCos pc := by
  induction n generalizing pc with
  | zero => exact le_refl _
  | succ m ih =>
    rw [MeshQualityImprover]
    by_cases h : meshDihedralCos (repair pc) ≤ meshDihedralCos pc
    · rw [if_pos h]
      exact le_trans (ih (repair pc)) h
    · rw [if_neg h]
      exact ih pc

/-- C2: for a fixed seed and identical configuration, any two calls of
the build operation — modelled as evaluations at two arbitrary ambient
world states — produce identical point arrays and identical simplex
arrays. -/
theorem build_deterministic_for_fixed_seed
    (gen : MeshGenerator) (w1 w2 : World) (maxIter seed nscreen : Nat)
    (ptsIn : Option (List Vec3 × List Tet)) (meshImprovement : Bool) (minDhBound : ℚ) :
    (gen.build w1 maxIter seed nscreen ptsIn meshImprovement minDhBound).points =
        (gen.build w2 maxIter seed nscreen ptsIn meshImprovement minDhBound).points ∧
      (gen.build w1 maxIter seed nscreen ptsIn meshImprovement minDhBound).cells =
        (gen.build w2 maxIter seed nscreen ptsIn meshImprovement minDhBound).cells := by
  cases ptsIn with
  | none => exact ⟨rfl, rfl⟩
  | some pc =>
    cases meshImprovement with
    | false => exact ⟨rfl, rfl⟩
    | true => exact ⟨rfl, rfl⟩

/-- C6: the output of a generation run of the build operation is a valid
mesh: every simplex is non-degenerate (nonzero volume, indices in range)
and every point index is referenced by at least one simplex. -/
theorem generator_output_mesh_valid
    (gen : MeshGenerator) (w : World) (maxIter seed nscreen : Nat) (minDhBound : ℚ) :
    MeshValid (gen.build w maxIter seed nscreen none false minDhBound).points
      (gen.build w maxIter seed nscreen none false minDhBound).cells :=
  finalizeMesh_valid _ _

/-- C7: a run of the build operation with mesh_improvement=True never
lowers the minimum dihedral angle of the input mesh: the mesh-wide
maximum of the cosine measure (strictly decreasing in the angle) of the
output is at most that of the input. -/
theorem mesh_improvement_never_worsens_min_dihedral
    (gen : MeshGenerator) (w : World) (maxIter seed nscreen : Nat)
    (pc : List Vec3 × List Tet) (minDhBound : ℚ) :
    meshDihedralCos
        ((gen.build w maxIter seed nscreen (some pc) true minDhBound).points,
          (gen.build w maxIter seed nscreen (some pc) true minDhBound).cells)
      ≤ meshDihedralCos pc :=
  MeshQualityImprover_le (repairPass minDhBound) maxIter pc

/-- C8: two build calls differing only in nscreen produce identical
points and simplices; nscreen only changes the progress log. -/
theorem nscreen_has_no_semantic_effect
    (gen : MeshGenerator) (w : World) (maxIter seed n1 n2 : Nat)
    (ptsIn : Option (List Vec3 × List Tet)) (meshImprovement : Bool) (minDhBound : ℚ) :
    (gen.build w maxIter seed n1 ptsIn meshImprovement minDhBound).points =
        (gen.build w maxIter seed n2 ptsIn meshImprovement minDhBound).points ∧
      (gen.build w maxIter seed n1 ptsIn meshImprovement minDhBound).cells =
        (gen.build w maxIter seed n2 ptsIn meshImprovement minDhBound).cells := by
  have hA := relaxLoop_points gen.cfg n1 n2 maxIter 0 (samplePoints gen.cfg seed) [] []
  cases ptsIn with
  | none =>
    exact ⟨congrArg (fun l => (finalizeMesh l (triangulate l)).1) hA,
      congrArg (fun l => (finalizeMesh l (triangulate l)).2) hA⟩
  | some pc =>
    cases meshImprovement with
    | true => exact ⟨rfl, rfl⟩
    | false =>
      exact ⟨congrArg (fun l => (finalizeMesh l (triangulate l)).1) hA,
        congrArg (fun l => (finalizeMesh l (triangulate l)).2) hA⟩

/-- C9: for every MeshSizeFunction, the object returned by build() is a
built sizing function the MeshGenerator constructor accepts. -/
theorem built_sizing_accepted_by_generator (m : MeshSizeFunction) :
    ∃ gen : MeshGenerator,
      MeshGenerator.ofSizing (MeshSizeFunction.build m) = some gen :=
  ⟨MeshGenerator.mk (buildSizingRow m.freq m.wl m.hmin m.hmax m.grade m.dx m.velocities)
      (cfgOf (MeshSizeFunction.build m)), rfl⟩

/-- C10: a build call carrying an existing point set and
mesh_improvement=True runs exactly the quality-improvement pass on that
set — bounded by maxIter passes and the dihedral bound — and returns a
points-and-cells result of the same shape as a generation run, touching
neither the sizing field nor the sampler. -/
theorem build_with_points_runs_only_improvement
    (gen : MeshGenerator) (w : World) (maxIter seed nscreen : Nat)
    (pc : List Vec3 × List Tet) (minDhBound : ℚ) :
    gen.build w maxIter seed nscreen (some pc) true minDhBound =
      BuildResult.mk (MeshQualityImprover (repairPass minDhBound) maxIter pc).1
        (MeshQualityImprover (repairPass minDhBound) maxIter pc).2 []
        (World.mk (w.clock + maxIter)) := rfl

/-- Modelled from the spec: the padding profile selector of the
MeshSizeFunction builder (spec 4.1 step 4, spec 6: padstyle is constant
or linear_ramp). -/
inductive Padstyle where
  | constant : Padstyle
  | linearRamp : Padstyle
deriving DecidableEq

/-- Modelled from the spec: the fill value of the extended region at
outward step k of npad, from boundary value edge (spec 4.1 step 4):
constant repeats the boundary value, linear_ramp increases linearly up
to hmax at the outer edge. -/
def fillVal : Padstyle → Nat → Nat → ℚ → ℚ → ℚ
  | Padstyle.constant, _, _, edge, _ => edge
  | Padstyle.linearRamp, npad, k, edge, hmax =>
    edge + (hmax - edge) * ((k : ℚ) + 1) / (npad : ℚ)

/-- The outward fill sequence of one boundary sample under a padstyle. -/
def padStyleRow (ps : Padstyle) (npad : Nat) (edge hmax : ℚ) : List ℚ :=
  (List.range npad).map (fun k => fillVal ps npad k edge hmax)

/-- The constant fill sequence is exactly the constant pad. -/
theorem padStyleRow_constant (npad : Nat) (edge hmax : ℚ) :
    padStyleRow Padstyle.constant npad edge hmax = padConstant npad edge := by
  unfold padStyleRow padConstant fillVal
  rw [List.map_const', List.length_range]

/-- The linear_ramp fill sequence is exactly the linear ramp pad. -/
theorem padStyleRow_linearRamp (npad : Nat) (edge hmax : ℚ) :
    padStyleRow Padstyle.linearRamp npad edge hmax = padLinearRamp npad edge hmax := rfl

/-- Modelled from the spec: one row of the working grid extended by npad
samples on each side, filled from the row's boundary values according to
the padstyle (spec 4.1 step 4). -/
def padRow (ps : Padstyle) (npad : Nat) (hmax : ℚ) (row : List ℚ) : List ℚ :=
  (padStyleRow ps npad (row.headD hmax) hmax).reverse ++ row ++
    padStyleRow ps npad (row.getLastD hmax) hmax

/-- Modelled from the spec: the working grid extended outward by npad
samples on every side (spec 4.1 step 4: extend the sampling grid outward
by the domain_ext distance, expressed here in grid samples): each row is
padded at both ends, then padded boundary rows are filled outward
columnwise from the first and last padded rows. -/
def padGrid (ps : Padstyle) (npad : Nat) (hmax : ℚ) (grid : List (List ℚ)) :
    List (List ℚ) :=
  ((List.range npad).map (fun k =>
      ((grid.map (padRow ps npad hmax)).headD []).map (fun e => fillVal ps npad k e hmax))).reverse
    ++ grid.map (padRow ps npad hmax)
    ++ (List.range npad).map (fun k =>
      ((grid.map (padRow ps npad hmax)).getLastD []).map (fun e => fillVal ps npad k e hmax))

/-- The sample of a working grid at row i, column j. -/
def valAt (grid : List (List ℚ)) (i j : Nat) : ℚ := (grid.getD i []).getD j 0

/-- All grid nodes as (row, column, value) triples. -/
def gridNodes (grid : List (List ℚ)) : List (Nat × Nat × ℚ) :=
  ((List.range grid.length).map (fun r =>
    (List.range (grid.getD r []).length).map (fun c => (r, c, valAt grid r c)))).flatten

/-- Modelled from the spec: the converged value of the gradient-limiting
sweep at node (i, j) (spec 4.1 step 3: a propagating fixed-point sweep
until no violation remains).  The sweep's fixpoint is the largest field
below the input satisfying the grading bound, which is the minimum over
all grid nodes of their value plus g times the grid (Manhattan) distance
in index units; g is grade times the sample spacing. -/
def limitAt (g : ℚ) (grid : List (List ℚ)) (i j : Nat) : ℚ :=
  ((gridNodes grid).map (fun n =>
    n.2.2 + g * (((Nat.dist i n.1 : ℕ) : ℚ) + ((Nat.dist j n.2.1 : ℕ) : ℚ)))).foldr
    min (valAt grid i j)

/-- Modelled from the spec: the gradient limiter applied to the whole
working grid (spec 4.1 step 3). -/
def limitGrid (g : ℚ) (grid : List (List ℚ)) : List (List ℚ) :=
  (List.range grid.length).map (fun i =>
    (List.range (grid.getD i []).length).map (fun j => limitAt g grid i j))

/-- Modelled from the spec: the MeshSizeFunction builder on the full 2-D
working grid of velocity samples spaced dx apart along each axis
(spec 4.1): raw size, clamp, extension of the grid by npad samples per
side filled by the padstyle, then the gradient limiter over the entire
padded grid, so the grading invariant also holds across the extended
region and across both axes. -/
def buildSizingGrid (ps : Padstyle) (npad : Nat) (freq wl hmin hmax grade dx : ℚ)
    (v : List (List ℚ)) : List (List ℚ) :=
  limitGrid (grade * dx)
    (padGrid ps npad hmax
      (v.map (fun row => row.map (fun vel => clampSize hmin hmax (rawSize freq wl vel)))))

theorem foldr_min_le_init (l : List ℚ) (a : ℚ) : l.foldr min a ≤ a := by
  induction l with
  | nil => exact le_refl a
  | cons x xs ih => exact le_trans (min_le_right _ _) ih

theorem foldr_min_le_mem (l : List ℚ) (a x : ℚ) (hx : x ∈ l) : l.foldr min a ≤ x := by
  induction l with
  | nil => simp at hx
  | cons y ys ih =>
    rcases List.mem_cons.mp hx with rfl | hx
    · exact min_le_left _ _
    · exact le_trans (min_le_right _ _) (ih hx)

theorem le_foldr_min (l : List ℚ) (a c : ℚ) (ha : c ≤ a) (h : ∀ x ∈ l, c ≤ x) :
    c ≤ l.foldr min a := by
  induction l with
  | nil => exact ha
  | cons y ys ih =>
    exact le_min (h y (by simp)) (ih (fun x hx => h x (by simp [hx])))

theorem gridNodes_mem_self (grid : List (List ℚ)) (i j : Nat)
    (hi : i < grid.length) (hj : j < (grid.getD i []).length) :
    (i, j, valAt grid i j) ∈ gridNodes grid := by
  unfold gridNodes
  rw [List.mem_flatten]
  refine ⟨(List.range (grid.getD i []).length).map (fun c => (i, c, valAt grid i c)), ?_, ?_⟩
  · exact List.mem_map_of_mem _ (List.mem_range.mpr hi)
  · exact List.mem_map_of_mem _ (List.mem_range.mpr hj)

theorem mem_gridNodes_elim (grid : List (List ℚ)) (n : Nat × Nat × ℚ)
    (hn : n ∈ gridNodes grid) :
    n.1 < grid.length ∧ n.2.1 < (grid.getD n.1 []).length ∧
      n.2.2 = valAt grid n.1 n.2.1 := by
  unfold gridNodes at hn
  rw [List.mem_flatten] at hn
  obtain ⟨l, hl, hnl⟩ := hn
  rw [List.mem_map] at hl
  obtain ⟨r, hr, rfl⟩ := hl
  rw [List.mem_map] at hnl
  obtain ⟨c, hc, rfl⟩ := hnl
  rw [List.mem_range] at hr hc
  exact ⟨hr, hc, rfl⟩

theorem valAt_bounds (grid : List (List ℚ)) (hmin hmax : ℚ)
    (hgrid : ∀ row ∈ grid, ∀ x ∈ row, hmin ≤ x ∧ x ≤ hmax)
    (i j : Nat) (hi : i < grid.length) (hj : j < (grid.getD i []).length) :
    hmin ≤ valAt grid i j ∧ valAt grid i j ≤ hmax := by
  have hrow : grid.getD i [] ∈ grid := by
    rw [List.getD_eq_getElem _ _ hi]
    exact List.getElem_mem hi
  have hx : (grid.getD i []).getD j 0 ∈ grid.getD i [] := by
    rw [List.getD_eq_getElem _ _ hj]
    exact List.getElem_mem hj
  exact hgrid _ hrow _ hx

theorem limitAt_bounds (g : ℚ) (hg : 0 ≤ g) (grid : List (List ℚ)) (hmin hmax : ℚ)
    (hgrid : ∀ row ∈ grid, ∀ x ∈ row, hmin ≤ x ∧ x ≤ hmax)
    (i j : Nat) (hi : i < grid.length) (hj : j < (grid.getD i []).length) :
    hmin ≤ limitAt g grid i j ∧ limitAt g grid i j ≤ hmax := by
  have hval := valAt_bounds grid hmin hmax hgrid i j hi hj
  constructor
  · apply le_foldr_min _ _ _ hval.1
    intro x hx
    rw [List.mem_map] at hx
    obtain ⟨n, hn, rfl⟩ := hx
    obtain ⟨h1, h2, h3⟩ := mem_gridNodes_elim grid n hn
    have hv := valAt_bounds grid hmin hmax hgrid n.1 n.2.1 h1 h2
    have hd : 0 ≤ g * (((Nat.dist i n.1 : ℕ) : ℚ) + ((Nat.dist j n.2.1 : ℕ) : ℚ)) :=
      mul_nonneg hg (by positivity)
    rw [h3]
    linarith [hv.1]
  · exact le_trans (foldr_min_le_init _ _) hval.2

/-- The limited field is g-Lipschitz in the grid metric: its value at
any node exceeds its value at any in-range node by at most g times the
index distance. -/
theorem limitAt_le_shift (g : ℚ) (hg : 0 ≤ g) (grid : List (List ℚ)) (i j i2 j2 : Nat)
    (hi2 : i2 < grid.length) (hj2 : j2 < (grid.getD i2 []).length) :
    limitAt g grid i j ≤ limitAt g grid i2 j2 +
      g * (((Nat.dist i i2 : ℕ) : ℚ) + ((Nat.dist j j2 : ℕ) : ℚ)) := by
  rw [← sub_le_iff_le_add]
  apply le_foldr_min
  · rw [sub_le_iff_le_add]
    have hmem := gridNodes_mem_self grid i2 j2 hi2 hj2
    have hterm := foldr_min_le_mem
      ((gridNodes grid).map (fun n =>
        n.2.2 + g * (((Nat.dist i n.1 : ℕ) : ℚ) + ((Nat.dist j n.2.1 : ℕ) : ℚ))))
      (valAt grid i j) _ (List.mem_map_of_mem _ hmem)
    exact hterm
  · intro x hx
    rw [List.mem_map] at hx
    obtain ⟨n, hn, rfl⟩ := hx
    rw [sub_le_iff_le_add]
    have hterm := foldr_min_le_mem
      ((gridNodes grid).map (fun m =>
        m.2.2 + g * (((Nat.dist i m.1 : ℕ) : ℚ) + ((Nat.dist j m.2.1 : ℕ) : ℚ))))
      (valAt grid i j) _ (List.mem_map_of_mem _ hn)
    have t1 : ((Nat.dist i n.1 : ℕ) : ℚ) ≤
        ((Nat.dist i i2 : ℕ) : ℚ) + ((Nat.dist i2 n.1 : ℕ) : ℚ) := by
      exact_mod_cast Nat.dist.triangle_inequality i i2 n.1
    have t2 : ((Nat.dist j n.2.1 : ℕ) : ℚ) ≤
        ((Nat.dist j j2 : ℕ) : ℚ) + ((Nat.dist j2 n.2.1 : ℕ) : ℚ) := by
      exact_mod_cast Nat.dist.triangle_inequality j j2 n.2.1
    have hmul := mul_le_mul_of_nonneg_left (add_le_add t1 t2) hg
    have heq : g * ((((Nat.dist i i2 : ℕ) : ℚ) + ((Nat.dist i2 n.1 : ℕ) : ℚ)) +
        (((Nat.dist j j2 : ℕ) : ℚ) + ((Nat.dist j2 n.2.1 : ℕ) : ℚ))) =
        g * (((Nat.dist i2 n.1 : ℕ) : ℚ) + ((Nat.dist j2 n.2.1 : ℕ) : ℚ)) +
        g * (((Nat.dist i i2 : ℕ) : ℚ) + ((Nat.dist j j2 : ℕ) : ℚ)) := by ring
    have hterm2 : limitAt g grid i j ≤
        n.2.2 + g * (((Nat.dist i n.1 : ℕ) : ℚ) + ((Nat.dist j n.2.1 : ℕ) : ℚ)) := hterm
    linarith [hterm2, hmul]

/-- Adjacent in-range grid samples of the limited field differ by at
most g. -/
theorem limitAt_adjacent_abs (g : ℚ) (hg : 0 ≤ g) (grid : List (List ℚ)) (i j i2 j2 : Nat)
    (hi : i < grid.length) (hj : j < (grid.getD i []).length)
    (hi2 : i2 < grid.length) (hj2 : j2 < (grid.getD i2 []).length)
    (hadj : Nat.dist i i2 + Nat.dist j j2 = 1) :
    |limitAt g grid i j - limitAt g grid i2 j2| ≤ g := by
  have h1 := limitAt_le_shift g hg grid i j i2 j2 hi2 hj2
  have h2 := limitAt_le_shift g hg grid i2 j2 i j hi hj
  have hD : ((Nat.dist i i2 : ℕ) : ℚ) + ((Nat.dist j j2 : ℕ) : ℚ) = 1 := by
    exact_mod_cast congrArg (fun m : ℕ => (m : ℚ)) hadj
  have hDr : ((Nat.dist i2 i : ℕ) : ℚ) + ((Nat.dist j2 j : ℕ) : ℚ) = 1 := by
    rw [Nat.dist_comm i2 i, Nat.dist_comm j2 j]
    exact hD
  rw [hD] at h1
  rw [hDr] at h2
  rw [abs_sub_le_iff]
  constructor <;> linarith

theorem fillVal_bounds (ps : Padstyle) (npad k : Nat) (edge hmin hmax : ℚ)
    (h1 : hmin ≤ edge) (h2 : edge ≤ hmax) (hk : k < npad) :
    hmin ≤ fillVal ps npad k edge hmax ∧ fillVal ps npad k edge hmax ≤ hmax := by
  cases ps with
  | constant => exact ⟨h1, h2⟩
  | linearRamp =>
    have hnp0 : 0 < npad := Nat.lt_of_le_of_lt (Nat.zero_le k) hk
    have hnp : (0 : ℚ) < (npad : ℚ) := by exact_mod_cast hnp0
    have hkn : ((k : ℚ) + 1) ≤ (npad : ℚ) := by exact_mod_cast Nat.succ_le_of_lt hk
    unfold fillVal
    constructor
    · have hnn : 0 ≤ (hmax - edge) * ((k : ℚ) + 1) / (npad : ℚ) :=
        div_nonneg (mul_nonneg (by linarith) (by positivity)) (le_of_lt hnp)
      linarith
    · have hfrac : (hmax - edge) * (((k : ℚ) + 1) / (npad : ℚ)) ≤ (hmax - edge) * 1 := by
        apply mul_le_mul_of_nonneg_left _ (by linarith)
        rw [div_le_one hnp]
        exact hkn
      calc edge + (hmax - edge) * ((k : ℚ) + 1) / (npad : ℚ)
          = edge + (hmax - edge) * (((k : ℚ) + 1) / (npad : ℚ)) := by ring
        _ ≤ edge + (hmax - edge) * 1 := by linarith
        _ = hmax := by ring

theorem padStyleRow_bounds (ps : Padstyle) (npad : Nat) (edge hmin hmax : ℚ)
    (h1 : hmin ≤ edge) (h2 : edge ≤ hmax) :
    ∀ x ∈ padStyleRow ps npad edge hmax, hmin ≤ x ∧ x ≤ hmax := by
  intro x hx
  unfold padStyleRow at hx
  rw [List.mem_map] at hx
  obtain ⟨k, hk, rfl⟩ := hx
  exact fillVal_bounds ps npad k edge hmin hmax h1 h2 (List.mem_range.mp hk)

theorem headD_bounds (row : List ℚ) (dflt hmin hmax : ℚ)
    (hd : hmin ≤ dflt ∧ dflt ≤ hmax) (h : ∀ x ∈ row, hmin ≤ x ∧ x ≤ hmax) :
    hmin ≤ row.headD dflt ∧ row.headD dflt ≤ hmax := by
  cases row with
  | nil => exact hd
  | cons a l => exact h a (by simp)

theorem getLastD_bounds (row : List ℚ) :
    ∀ dflt : ℚ, ∀ hmin hmax : ℚ, (hmin ≤ dflt ∧ dflt ≤ hmax) →
      (∀ x ∈ row, hmin ≤ x ∧ x ≤ hmax) →
      hmin ≤ row.getLastD dflt ∧ row.getLastD dflt ≤ hmax := by
  induction row with
  | nil => intro dflt hmin hmax hd _; exact hd
  | cons a l ih =>
    intro dflt hmin hmax hd h
    rw [List.getLastD_cons]
    exact ih a hmin hmax (h a (by simp)) (fun x hx => h x (by simp [hx]))

theorem padRow_bounds (ps : Padstyle) (npad : Nat) (hmin hmax : ℚ) (row : List ℚ)
    (hb : hmin ≤ hmax) (h : ∀ x ∈ row, hmin ≤ x ∧ x ≤ hmax) :
    ∀ x ∈ padRow ps npad hmax row, hmin ≤ x ∧ x ≤ hmax := by
  have hhead := headD_bounds row hmax hmin hmax ⟨hb, le_refl hmax⟩ h
  have hlast := getLastD_bounds row hmax hmin hmax ⟨hb, le_refl hmax⟩ h
  intro x hx
  unfold padRow at hx
  simp only [List.mem_append, List.mem_reverse] at hx
  rcases hx with (hx | hx) | hx
  · exact padStyleRow_bounds ps npad _ hmin hmax hhead.1 hhead.2 x hx
  · exact h x hx
  · exact padStyleRow_bounds ps npad _ hmin hmax hlast.1 hlast.2 x hx

theorem headD_rows_mem (L : List (List ℚ)) (P : ℚ → Prop)
    (h : ∀ row ∈ L, ∀ x ∈ row, P x) : ∀ x ∈ L.headD [], P x := by
  cases L with
  | nil => intro x hx; simp at hx
  | cons r rs => exact h r (by simp)

theorem getLastD_rows_mem (L : List (List ℚ)) :
    ∀ dflt : List ℚ, ∀ P : ℚ → Prop, (∀ x ∈ dflt, P x) →
      (∀ row ∈ L, ∀ x ∈ row, P x) → ∀ x ∈ L.getLastD dflt, P x := by
  induction L with
  | nil => intro dflt P hd _; exact hd
  | cons r rs ih =>
    intro dflt P hd h
    rw [List.getLastD_cons]
    exact ih r P (h r (by simp)) (fun row hrow x hx => h row (by simp [hrow]) x hx)

theorem padGrid_bounds (ps : Padstyle) (npad : Nat) (hmin hmax : ℚ)
    (grid : List (List ℚ)) (hb : hmin ≤ hmax)
    (h : ∀ row ∈ grid, ∀ x ∈ row, hmin ≤ x ∧ x ≤ hmax) :
    ∀ row ∈ padGrid ps npad hmax grid, ∀ x ∈ row, hmin ≤ x ∧ x ≤ hmax := by
  have hrows : ∀ row ∈ grid.map (padRow ps npad hmax), ∀ x ∈ row,
      hmin ≤ x ∧ x ≤ hmax := by
    intro row hrow
    rw [List.mem_map] at hrow
    obtain ⟨r, hr, rfl⟩ := hrow
    exact padRow_bounds ps npad hmin hmax r hb (h r hr)
  have hfill : ∀ srcRow : List ℚ, (∀ x ∈ srcRow, hmin ≤ x ∧ x ≤ hmax) →
      ∀ k ∈ List.range npad, ∀ x ∈ srcRow.map (fun e => fillVal ps npad k e hmax),
        hmin ≤ x ∧ x ≤ hmax := by
    intro srcRow hsrc k hk x hx
    rw [List.mem_map] at hx
    obtain ⟨e, he, rfl⟩ := hx
    exact fillVal_bounds ps npad k e hmin hmax (hsrc e he).1 (hsrc e he).2
      (List.mem_range.mp hk)
  intro row hrow
  unfold padGrid at hrow
  simp only [List.mem_append, List.mem_reverse, List.mem_map] at hrow
  rcases hrow with (⟨k, hk, rfl⟩ | ⟨r, hr, rfl⟩) | ⟨k, hk, rfl⟩
  · exact hfill _ (headD_rows_mem _ _ hrows) k hk
  · exact padRow_bounds ps npad hmin hmax r hb (h r hr)
  · exact hfill _ (getLastD_rows_mem _ [] _ (by intro x hx; simp at hx) hrows) k hk

theorem limitGrid_length (g : ℚ) (grid : List (List ℚ)) :
    (limitGrid g grid).length = grid.length := by
  unfold limitGrid
  rw [List.length_map, List.length_range]

theorem limitGrid_row (g : ℚ) (grid : List (List ℚ)) (i : Nat) (hi : i < grid.length) :
    (limitGrid g grid).getD i [] =
      (List.range (grid.getD i []).length).map (fun j => limitAt g grid i j) := by
  unfold limitGrid
  rw [List.getD_eq_getElem _ _ (by rw [List.length_map, List.length_range]; exact hi)]
  rw [List.getElem_map, List.getElem_range]

theorem limitGrid_val (g : ℚ) (grid : List (List ℚ)) (i j : Nat)
    (hi : i < grid.length) (hj : j < (grid.getD i []).length) :
    valAt (limitGrid g grid) i j = limitAt g grid i j := by
  unfold valAt
  rw [limitGrid_row g grid i hi]
  rw [List.getD_eq_getElem _ _ (by rw [List.length_map, List.length_range]; exact hj)]
  rw [List.getElem_map, List.getElem_range]

theorem limitGrid_row_length (g : ℚ) (grid : List (List ℚ)) (i : Nat)
    (hi : i < grid.length) :
    ((limitGrid g grid).getD i []).length = (grid.getD i []).length := by
  rw [limitGrid_row g grid i hi, List.length_map, List.length_range]

/-- C3: for every sizing field produced by the builder — over the full
2-D working grid, extended by the padstyle fill — every sampled value
lies between hmin and hmax, and every pair of adjacent grid samples
(index distance one, along either axis, with physical spacing dx,
extended region included) differs by at most grade * dx: the grading
invariant holds after the limiting sweep. -/
theorem sizing_field_bounds_and_grading
    (ps : Padstyle) (npad : Nat) (freq wl hmin hmax grade dx : ℚ) (v : List (List ℚ))
    (hb : hmin ≤ hmax) (hgr : 0 ≤ grade) (hdx : 0 ≤ dx) :
    (∀ row ∈ buildSizingGrid ps npad freq wl hmin hmax grade dx v, ∀ x ∈ row,
        hmin ≤ x ∧ x ≤ hmax) ∧
      (∀ i j i2 j2 : Nat,
        i < (buildSizingGrid ps npad freq wl hmin hmax grade dx v).length →
        j < ((buildSizingGrid ps npad freq wl hmin hmax grade dx v).getD i []).length →
        i2 < (buildSizingGrid ps npad freq wl hmin hmax grade dx v).length →
        j2 < ((buildSizingGrid ps npad freq wl hmin hmax grade dx v).getD i2 []).length →
        Nat.dist i i2 + Nat.dist j j2 = 1 →
        |valAt (buildSizingGrid ps npad freq wl hmin hmax grade dx v) i j -
            valAt (buildSizingGrid ps npad freq wl hmin hmax grade dx v) i2 j2| ≤
          grade * dx) := by
  have hg : 0 ≤ grade * dx := mul_nonneg hgr hdx
  have hclamped : ∀ row ∈ v.map (fun row => row.map
      (fun vel => clampSize hmin hmax (rawSize freq wl vel))), ∀ x ∈ row,
      hmin ≤ x ∧ x ≤ hmax := by
    intro row hrow x hx
    rw [List.mem_map] at hrow
    obtain ⟨r, _, rfl⟩ := hrow
    rw [List.mem_map] at hx
    obtain ⟨vel, _, rfl⟩ := hx
    exact clampSize_mem hmin hmax (rawSize freq wl vel) hb
  have hpadded := padGrid_bounds ps npad hmin hmax _ hb hclamped
  constructor
  · intro row hrow x hx
    unfold buildSizingGrid limitGrid at hrow
    rw [List.mem_map] at hrow
    obtain ⟨i, hi, rfl⟩ := hrow
    rw [List.mem_range] at hi
    rw [List.mem_map] at hx
    obtain ⟨j, hj, rfl⟩ := hx
    rw [List.mem_range] at hj
    exact limitAt_bounds _ hg _ hmin hmax hpadded i j hi hj
  · intro i j i2 j2 hi hj hi2 hj2 hadj
    unfold buildSizingGrid at hi hj hi2 hj2 ⊢
    rw [limitGrid_length] at hi hi2
    rw [limitGrid_row_length _ _ i hi] at hj
    rw [limitGrid_row_length _ _ i2 hi2] at hj2
    rw [limitGrid_val _ _ i j hi hj, limitGrid_val _ _ i2 j2 hi2 hj2]
    exact limitAt_adjacent_abs _ hg _ i j i2 j2 hi hj hi2 hj2 hadj

theorem sizing_field_bounds_and_grading_witness :
    ((100 : ℚ) ≤ 1000 ∧ (0 : ℚ) ≤ 1 / 200 ∧ (0 : ℚ) ≤ 200) ∧
      ((∀ row ∈ buildSizingGrid Padstyle.linearRamp 2 10 5 100 1000 (1 / 200) 200
            [[2500, 4000], [9000, 3000]], ∀ x ∈ row, 100 ≤ x ∧ x ≤ 1000) ∧
        (∀ i j i2 j2 : Nat,
          i < (buildSizingGrid Padstyle.linearRamp 2 10 5 100 1000 (1 / 200) 200
            [[2500, 4000], [9000, 3000]]).length →
          j < ((buildSizingGrid Padstyle.linearRamp 2 10 5 100 1000 (1 / 200) 200
            [[2500, 4000], [9000, 3000]]).getD i []).length →
          i2 < (buildSizingGrid Padstyle.linearRamp 2 10 5 100 1000 (1 / 200) 200
            [[2500, 4000], [9000, 3000]]).length →
          j2 < ((buildSizingGrid Padstyle.linearRamp 2 10 5 100 1000 (1 / 200) 200
            [[2500, 4000], [9000, 3000]]).getD i2 []).length →
          Nat.dist i i2 + Nat.dist j j2 = 1 →
          |valAt (buildSizingGrid Padstyle.linearRamp 2 10 5 100 1000 (1 / 200) 200
              [[2500, 4000], [9000, 3000]]) i j -
            valAt (buildSizingGrid Padstyle.linearRamp 2 10 5 100 1000 (1 / 200) 200
              [[2500, 4000], [9000, 3000]]) i2 j2| ≤ (1 / 200) * 200)) :=
  ⟨⟨by norm_num, by norm_num, by norm_num⟩,
    sizing_field_bounds_and_grading Padstyle.linearRamp 2 10 5 100 1000 (1 / 200) 200
      [[2500, 4000], [9000, 3000]] (by norm_num) (by norm_num) (by norm_num)⟩
